import Mathlib

/-!
Shallow embedding of the futex-style lock family of the repository
(`src/mutex/mod.rs`, `src/rw_lock/mod.rs`, `src/cond_var/mod.rs`).

Atomic `u32` values are modelled as `Nat` with explicit `% 2^32` wherever the
source can wrap.  The futex primitives `wait`, `wake_one`, `wake_all` have no
effect on the shared word; calls to them are recorded as events or booleans.
Interference from other threads is modelled either by an adversarial script of
observed values (for the per-operation models) or by a small-step interleaving
machine (for the whole-program mutual-exclusion statement).
-/

namespace LearnUnsafe

/-- Two 32-bit constants used by the embedding: `u32::MAX - 2` (the reader
overflow bound in `RwLock::read`) and `2^32` (the wrap modulus). -/
def u32Max : Nat := 4294967295

def u32Mod : Nat := 4294967296

/-! ## Mutex: sequential model of the shared word and the guard

`Mutex<T>` is `{ locked: AtomicU32, data: UnsafeCell<T> }`.  The three state
values are `0` (unlocked), `1` (locked, no waiters), `2` (locked with
waiters). -/

structure MutexSt (T : Type) where
  locked : Nat
  data : T
  deriving Repr, DecidableEq

/-- `impl Drop for MutexGuard`: `if self.lock.locked.swap(0, Release) == 2 {
wake_one(&self.lock.locked) }`.  Returns the new mutex state and whether
`wake_one` was called. -/
def guardDrop {T : Type} (m : MutexSt T) : MutexSt T × Bool :=
  let prev := m.locked
  ({ m with locked := 0 }, prev == 2)

/-- `Mutex::lock` in a single-thread (uncontended) setting: the initial
`compare_exchange(0, 1, Acquire, Relaxed)` of `lock_contended` succeeds iff the
word is `0`; otherwise the sequential model would block, returned as `none`. -/
def mutexLock {T : Type} (m : MutexSt T) : Option (MutexSt T) :=
  if m.locked = 0 then some { m with locked := 1 } else none

/-- `Mutex::with_fn`: `let mut lock = self.lock(); f(&mut *lock)` — the guard
is dropped when `with_fn` returns.  `f` mutates the protected value and
produces a result. -/
def withFn {T R : Type} (m : MutexSt T) (f : T → T × R) : Option (MutexSt T × R) :=
  (mutexLock m).map fun m1 =>
    let fr := f m1.data
    let dropped := guardDrop { m1 with data := fr.1 }
    (dropped.1, fr.2)

/-- The explicit sequence the spec describes for `with_fn`: call `lock()`,
apply `f` through the guard's target, then drop the guard. -/
def lockApplyDropSeq {T R : Type} (m : MutexSt T) (f : T → T × R) :
    Option (MutexSt T × R) :=
  match mutexLock m with
  | none => none
  | some m1 =>
    let fr := f m1.data
    let m2 : MutexSt T := { m1 with data := fr.1 }
    let dropped := guardDrop m2
    some (dropped.1, fr.2)

/-! ## Mutex: trace model of the `lock_contended` while-loop

```
while state.swap(2, Acquire) != 0 {
    if spin_count < 100 { spin_count += 1; std::hint::spin_loop(); }
    wait(state, 2);
}
```
The adversary supplies the value the atomic word holds just before each
`swap` (the swap itself always stores `2`).  The trace records each observed
swap, each spin-loop hint and each `wait` call with its expected value. -/

inductive MuEv where
  | swapObs (old : Nat)
  | hint
  | waitCall (expected : Nat)
  deriving Repr, DecidableEq

def lockContendedLoop (spin : Nat) : List Nat → List MuEv
  | [] => []
  | old :: rest =>
    MuEv.swapObs old ::
      (if old = 0 then []
       else if spin < 100 then
         MuEv.hint :: MuEv.waitCall 2 :: lockContendedLoop (spin + 1) rest
       else
         MuEv.waitCall 2 :: lockContendedLoop spin rest)

/-- Number of loop passes that observe a nonzero (contended) value before the
acquiring pass. -/
def countContended : List Nat → Nat
  | [] => 0
  | old :: rest => if old = 0 then 0 else countContended rest + 1

/-! ## RwLock: trace model of `RwLock::read`

```
let mut state = self.state.load(Relaxed);
loop {
    if state % 2 == 0 {
        assert!(state < u32::MAX - 2, "too many readers");
        match self.state.compare_exchange_weak(state, state + 2, Acquire, Relaxed) {
            Ok(_) => return ReadGuard { lock: self },
            Err(new_state) => state = new_state,
        }
    }
    if state % 2 == 1 { wait(&self.state, state); state = self.state.load(Relaxed); }
}
```
The adversary script supplies the outcome of each `compare_exchange_weak`
(`casOk`, or `casFail s` with the freshly observed value `s`) and the value
re-loaded after each `wait` (`reload s`).  The trace records each CAS attempt
(source and target value) and each `wait` call with the value it is keyed to.
A script that ends mid-loop yields the artificial outcome `stuck`. -/

inductive RwObs where
  | casOk
  | casFail (s : Nat)
  | reload (s : Nat)
  deriving Repr, DecidableEq

inductive RwOut where
  | acquired (newState : Nat)
  | panicked
  | stuck
  deriving Repr, DecidableEq

inductive REv where
  | casTry (src dst : Nat)
  | waitOn (v : Nat)
  deriving Repr, DecidableEq

def rwRead (state : Nat) (obs : List RwObs) : List REv × RwOut :=
  if state % 2 = 0 then
    if state < u32Max - 2 then
      match obs with
      | [] => ([], RwOut.stuck)
      | RwObs.casOk :: _ => ([REv.casTry state (state + 2)], RwOut.acquired (state + 2))
      | RwObs.casFail s :: rest =>
        if s % 2 = 1 then
          match rest with
          | RwObs.reload s2 :: rest2 =>
            let r := rwRead s2 rest2
            (REv.casTry state (state + 2) :: REv.waitOn s :: r.1, r.2)
          | _ => ([REv.casTry state (state + 2)], RwOut.stuck)
        else
          let r := rwRead s rest
          (REv.casTry state (state + 2) :: r.1, r.2)
      | RwObs.reload _ :: _ => ([], RwOut.stuck)
    else ([], RwOut.panicked)
  else
    match obs with
    | RwObs.reload s :: rest =>
      let r := rwRead s rest
      (REv.waitOn state :: r.1, r.2)
    | _ => ([], RwOut.stuck)

/-- The state values an adversary script makes the loop observe. -/
def obsVals : List RwObs → List Nat
  | [] => []
  | RwObs.casOk :: rest => obsVals rest
  | RwObs.casFail s :: rest => s :: obsVals rest
  | RwObs.reload s :: rest => s :: obsVals rest

/-- `impl Drop for ReadGuard`:
```
if self.lock.state.fetch_sub(2, Release) == 3 {
    self.lock.write_waker.fetch_add(1, Release);
    wake_one(&self.lock.write_waker);
}
```
Input: the current `state` and `write_waker` words.  Output: the new `state`,
the new `write_waker`, and whether `wake_one` was called. -/
def readGuardDrop (state waker : Nat) : Nat × Nat × Bool :=
  let prev := state
  let newState := (state + (u32Mod - 2)) % u32Mod
  if prev = 3 then (newState, (waker + 1) % u32Mod, true)
  else (newState, waker, false)

/-! ## Condvar

`Condvar { counter: AtomicU32, waiter: AtomicUsize }`. -/

def usizeMod : Nat := 18446744073709551616

structure CondvarSt where
  counter : Nat
  waiter : Nat
  deriving Repr, DecidableEq

/-- `Condvar::notify_one`: returns the new condvar state and whether
`wake_one(&self.counter)` was called. -/
def notifyOne (c : CondvarSt) : CondvarSt × Bool :=
  if c.waiter = 0 then (c, false)
  else ({ counter := (c.counter + 1) % u32Mod, waiter := c.waiter }, true)

/-- `Condvar::notify_all`: returns the new condvar state and whether
`wake_all(&self.counter)` was called. -/
def notifyAll (c : CondvarSt) : CondvarSt × Bool :=
  if c.waiter = 0 then (c, false)
  else ({ counter := (c.counter + 1) % u32Mod, waiter := c.waiter }, true)

/-- A world with one condvar and a set of mutexes addressable by index; a
`MutexGuard` is modelled by the index of the mutex it was issued from
(the guard's `lock: &'a Mutex<T>` field). -/
structure CvWorld (T : Type) where
  cv : CondvarSt
  mutexes : List (MutexSt T)
  deriving Repr

/-- `Condvar::wait`:
```
let counter = self.counter.load(Relaxed);
self.waiter.fetch_add(1, Relaxed);
let mutex = guard.lock;
drop(guard);
wait(&self.counter, counter);
self.waiter.fetch_sub(1, Relaxed);
mutex.lock()
```
The futex `wait` is modelled as returning (it blocks until woken or the value
changed); with no interfering thread, the `mutex.lock()` reacquisition
succeeds through the uncontended compare-and-swap.  Returns the new world and
the returned guard's mutex index, or `none` when the guard's index is out of
range. -/
def condWait {T : Type} (w : CvWorld T) (g : Nat) : Option (CvWorld T × Nat) :=
  match w.mutexes[g]? with
  | none => none
  | some m =>
    let sampled := w.cv.counter
    let waiter1 := (w.cv.waiter + 1) % usizeMod
    let droppedGuard := guardDrop m
    let waiter2 := (waiter1 + (usizeMod - 1)) % usizeMod
    match mutexLock droppedGuard.1 with
    | none => none
    | some m2 =>
      some ({ cv := { counter := sampled, waiter := waiter2 },
              mutexes := w.mutexes.set g m2 }, g)

/-! ## Interleaving machine for N threads incrementing through the Mutex

Each thread runs `K` iterations of: `let mut g = mutex.lock(); *g += 1;
drop(g)`.  The atomic instructions of `lock_contended` and of the guard's
`drop` are the machine's steps; the futex `wait`/`wake_one` calls and the spin
hints do not change the shared word and are absorbed into the step relation
(a waiting thread may retry its swap at any time, which over-approximates
every wake discipline and is sound for safety properties).

Thread program counters (`k` counts the increments still to be performed,
including the current critical section while it is in progress):
* `ready k` — about to run the initial `compare_exchange(0, 1, Acquire, _)`;
* `looping k` — inside the `while state.swap(2, Acquire) != 0` loop;
* `crit sw k` — holds the lock, about to increment; `sw = true` iff the lock
  was acquired by the contended-path swap;
* `unlocking sw k` — has incremented (`k` increments remain after this
  critical section), about to run the guard drop's `swap(0, Release)`;
* `done` — finished all `K` iterations. -/

inductive PC where
  | ready (k : Nat)
  | looping (k : Nat)
  | crit (sw : Bool) (k : Nat)
  | unlocking (sw : Bool) (k : Nat)
  | done
  deriving Repr, DecidableEq

/-- Increments this thread still has to perform. -/
def PC.rem : PC → Nat
  | .ready k => k
  | .looping k => k
  | .crit _ k => k
  | .unlocking _ k => k
  | .done => 0

/-- The thread holds exclusive access to the protected data. -/
def PC.holding : PC → Prop
  | .crit _ _ => True
  | .unlocking _ _ => True
  | _ => False

/-- The thread holds the lock and acquired it through the contended-path
swap. -/
def PC.swapHolder : PC → Prop
  | .crit true _ => True
  | .unlocking true _ => True
  | _ => False

/-- Well-formedness of a single program counter: a thread that still has the
lock to take, or is about to increment, has at least one increment left. -/
def PC.ok : PC → Prop
  | .ready k => 1 ≤ k
  | .looping k => 1 ≤ k
  | .crit _ k => 1 ≤ k
  | _ => True

structure Cfg (n : Nat) where
  lock : Nat
  counter : Nat
  tst : Fin n → PC

/-- One atomic step of one thread.  `casSuccess`/`casFail` are the two
outcomes of `lock_contended`'s initial `compare_exchange(0, 1, Acquire,
Relaxed)`; `swapAcquire`/`swapContended` the two outcomes of
`state.swap(2, Acquire)` (the store of `2` happens in both); `increment` is
`*guard += 1`; `release` is the guard drop's `swap(0, Release)` followed by
returning to the next iteration (or finishing). -/
inductive Step (n : Nat) : Cfg n → Cfg n → Prop where
  | casSuccess (c : Cfg n) (i : Fin n) (k : Nat)
      (hpc : c.tst i = PC.ready k) (hl : c.lock = 0) :
      Step n c ⟨1, c.counter, Function.update c.tst i (PC.crit false k)⟩
  | casFail (c : Cfg n) (i : Fin n) (k : Nat)
      (hpc : c.tst i = PC.ready k) (hl : c.lock ≠ 0) :
      Step n c ⟨c.lock, c.counter, Function.update c.tst i (PC.looping k)⟩
  | swapAcquire (c : Cfg n) (i : Fin n) (k : Nat)
      (hpc : c.tst i = PC.looping k) (hl : c.lock = 0) :
      Step n c ⟨2, c.counter, Function.update c.tst i (PC.crit true k)⟩
  | swapContended (c : Cfg n) (i : Fin n) (k : Nat)
      (hpc : c.tst i = PC.looping k) (hl : c.lock ≠ 0) :
      Step n c ⟨2, c.counter, Function.update c.tst i (PC.looping k)⟩
  | increment (c : Cfg n) (i : Fin n) (sw : Bool) (k : Nat)
      (hpc : c.tst i = PC.crit sw k) :
      Step n c ⟨c.lock, c.counter + 1, Function.update c.tst i (PC.unlocking sw (k - 1))⟩
  | release (c : Cfg n) (i : Fin n) (sw : Bool) (k : Nat)
      (hpc : c.tst i = PC.unlocking sw k) :
      Step n c ⟨0, c.counter,
        Function.update c.tst i (if k = 0 then PC.done else PC.ready k)⟩

/-- Initial configuration: lock unlocked, counter `0`, every thread with `K`
increments to perform. -/
def initCfg (n K : Nat) : Cfg n :=
  ⟨0, 0, fun _ => if K = 0 then PC.done else PC.ready K⟩

def Reachable (n K : Nat) (c : Cfg n) : Prop :=
  Relation.ReflTransGen (Step n) (initCfg n K) c

/-- The inductive invariant of the machine. -/
def Inv (n K : Nat) (c : Cfg n) : Prop :=
  (∀ i, (c.tst i).ok) ∧
  (c.lock = 0 → ∀ i, ¬ (c.tst i).holding) ∧
  (∀ i j, (c.tst i).holding → (c.tst j).holding → i = j) ∧
  (c.counter + (Finset.univ.sum fun i => (c.tst i).rem) = n * K) ∧
  (∀ i, (c.tst i).swapHolder → c.lock = 2)

theorem sum_update_rem {n : Nat} (f : Fin n → PC) (i : Fin n) (pc : PC) :
    (Finset.univ.sum fun j => (Function.update f i pc j).rem) + (f i).rem
      = (Finset.univ.sum fun j => (f j).rem) + pc.rem := by
  have hfun : (fun j => (Function.update f i pc j).rem)
      = Function.update (fun j => (f j).rem) i pc.rem := by
    funext j
    by_cases hji : j = i
    · subst hji; simp
    · simp [Function.update_noteq hji]
  rw [hfun, Finset.sum_update_of_mem (Finset.mem_univ i),
    Finset.sum_eq_sum_diff_singleton_add (Finset.mem_univ i) fun j => (f j).rem]
  omega

theorem update_pred_elim {n : Nat} (P : PC → Prop) (f : Fin n → PC) (i j : Fin n)
    (pc : PC) (h : P (Function.update f i pc j)) :
    (j = i ∧ P pc) ∨ (j ≠ i ∧ P (f j)) := by
  by_cases hji : j = i
  · subst hji; exact Or.inl ⟨rfl, by rwa [Function.update_same] at h⟩
  · exact Or.inr ⟨hji, by rwa [Function.update_noteq hji] at h⟩

theorem inv_init (n K : Nat) : Inv n K (initCfg n K) := by
  refine ⟨?_, ?_, ?_, ?_, ?_⟩
  · intro i
    by_cases hK : K = 0
    · simp [initCfg, hK, PC.ok]
    · simp [initCfg, hK, PC.ok]
      omega
  · intro _ i
    by_cases hK : K = 0 <;> simp [initCfg, hK, PC.holding]
  · intro i j hi _
    exfalso
    by_cases hK : K = 0 <;> simp [initCfg, hK, PC.holding] at hi
  · have hrem : (if K = 0 then PC.done else PC.ready K).rem = K := by
      by_cases hK : K = 0 <;> simp [hK, PC.rem]
    show 0 + (Finset.univ.sum fun _ => (if K = 0 then PC.done else PC.ready K).rem)
      = n * K
    simp [hrem, Finset.sum_const, Finset.card_univ, mul_comm]
  · intro i hi
    exfalso
    by_cases hK : K = 0 <;> simp [initCfg, hK, PC.swapHolder] at hi

theorem update_pred_intro {n : Nat} (P : PC → Prop) (f : Fin n → PC) (i : Fin n)
    (pc : PC) (hpc : P pc) (hf : ∀ j, P (f j)) :
    ∀ j, P (Function.update f i pc j) := by
  intro j
  by_cases hji : j = i
  · subst hji; rwa [Function.update_same]
  · rw [Function.update_noteq hji]; exact hf j

theorem holding_of_swapHolder (pc : PC) (h : pc.swapHolder) : pc.holding := by
  cases pc with
  | crit sw k => cases sw <;> simp_all [PC.swapHolder, PC.holding]
  | unlocking sw k => cases sw <;> simp_all [PC.swapHolder, PC.holding]
  | ready k => simp [PC.swapHolder] at h
  | looping k => simp [PC.swapHolder] at h
  | done => simp [PC.swapHolder] at h

theorem inv_step {n K : Nat} {c c' : Cfg n} (hInv : Inv n K c) (hstep : Step n c c') :
    Inv n K c' := by
  obtain ⟨hok, hlock0, huniq, hsum, hsw⟩ := hInv
  cases hstep with
  | casSuccess i k hpc hl =>
    have hki : 1 ≤ k := by have h := hok i; rw [hpc] at h; exact h
    refine ⟨?_, ?_, ?_, ?_, ?_⟩
    · exact update_pred_intro PC.ok c.tst i _ hki hok
    · intro h
      exact absurd (show (1 : Nat) = 0 from h) one_ne_zero
    · intro j1 j2 h1 h2
      have hnone := hlock0 hl
      rcases update_pred_elim PC.holding c.tst i j1 _ h1 with ⟨e1, _⟩ | ⟨_, hh1⟩
      · rcases update_pred_elim PC.holding c.tst i j2 _ h2 with ⟨e2, _⟩ | ⟨_, hh2⟩
        · rw [e1, e2]
        · exact absurd hh2 (hnone j2)
      · exact absurd hh1 (hnone j1)
    · have h := sum_update_rem c.tst i (PC.crit false k)
      rw [hpc] at h
      show c.counter + (Finset.univ.sum fun j =>
        (Function.update c.tst i (PC.crit false k) j).rem) = n * K
      have hr : (PC.ready k).rem = k := rfl
      have hc : (PC.crit false k).rem = k := rfl
      omega
    · intro j hj
      rcases update_pred_elim PC.swapHolder c.tst i j _ hj with ⟨_, hh⟩ | ⟨_, hh⟩
      · exact absurd hh (by simp [PC.swapHolder])
      · have h2 := hsw j hh
        rw [hl] at h2
        simp at h2
  | casFail i k hpc hl =>
    have hki : 1 ≤ k := by have h := hok i; rw [hpc] at h; exact h
    refine ⟨?_, ?_, ?_, ?_, ?_⟩
    · exact update_pred_intro PC.ok c.tst i _ hki hok
    · intro h
      exact absurd (show c.lock = 0 from h) hl
    · intro j1 j2 h1 h2
      rcases update_pred_elim PC.holding c.tst i j1 _ h1 with ⟨_, hh1⟩ | ⟨_, hh1⟩
      · exact absurd hh1 (by simp [PC.holding])
      · rcases update_pred_elim PC.holding c.tst i j2 _ h2 with ⟨_, hh2⟩ | ⟨_, hh2⟩
        · exact absurd hh2 (by simp [PC.holding])
        · exact huniq j1 j2 hh1 hh2
    · have h := sum_update_rem c.tst i (PC.looping k)
      rw [hpc] at h
      show c.counter + (Finset.univ.sum fun j =>
        (Function.update c.tst i (PC.looping k) j).rem) = n * K
      have hr : (PC.ready k).rem = k := rfl
      have hc : (PC.looping k).rem = k := rfl
      omega
    · intro j hj
      show c.lock = 2
      rcases update_pred_elim PC.swapHolder c.tst i j _ hj with ⟨_, hh⟩ | ⟨_, hh⟩
      · exact absurd hh (by simp [PC.swapHolder])
      · exact hsw j hh
  | swapAcquire i k hpc hl =>
    have hki : 1 ≤ k := by have h := hok i; rw [hpc] at h; exact h
    refine ⟨?_, ?_, ?_, ?_, ?_⟩
    · exact update_pred_intro PC.ok c.tst i _ hki hok
    · intro h
      exact absurd (show (2 : Nat) = 0 from h) (by omega)
    · intro j1 j2 h1 h2
      have hnone := hlock0 hl
      rcases update_pred_elim PC.holding c.tst i j1 _ h1 with ⟨e1, _⟩ | ⟨_, hh1⟩
      · rcases update_pred_elim PC.holding c.tst i j2 _ h2 with ⟨e2, _⟩ | ⟨_, hh2⟩
        · rw [e1, e2]
        · exact absurd hh2 (hnone j2)
      · exact absurd hh1 (hnone j1)
    · have h := sum_update_rem c.tst i (PC.crit true k)
      rw [hpc] at h
      show c.counter + (Finset.univ.sum fun j =>
        (Function.update c.tst i (PC.crit true k) j).rem) = n * K
      have hr : (PC.looping k).rem = k := rfl
      have hc : (PC.crit true k).rem = k := rfl
      omega
    · intro j _
      rfl
  | swapContended i k hpc hl =>
    have hki : 1 ≤ k := by have h := hok i; rw [hpc] at h; exact h
    refine ⟨?_, ?_, ?_, ?_, ?_⟩
    · exact update_pred_intro PC.ok c.tst i _ hki hok
    · intro h
      exact absurd (show (2 : Nat) = 0 from h) (by omega)
    · intro j1 j2 h1 h2
      rcases update_pred_elim PC.holding c.tst i j1 _ h1 with ⟨_, hh1⟩ | ⟨_, hh1⟩
      · exact absurd hh1 (by simp [PC.holding])
      · rcases update_pred_elim PC.holding c.tst i j2 _ h2 with ⟨_, hh2⟩ | ⟨_, hh2⟩
        · exact absurd hh2 (by simp [PC.holding])
        · exact huniq j1 j2 hh1 hh2
    · have h := sum_update_rem c.tst i (PC.looping k)
      rw [hpc] at h
      show c.counter + (Finset.univ.sum fun j =>
        (Function.update c.tst i (PC.looping k) j).rem) = n * K
      have hr : (PC.looping k).rem = k := rfl
      omega
    · intro j _
      rfl
  | increment i sw k hpc =>
    have hki : 1 ≤ k := by have h := hok i; rw [hpc] at h; exact h
    have hci : (c.tst i).holding := by rw [hpc]; trivial
    refine ⟨?_, ?_, ?_, ?_, ?_⟩
    · exact update_pred_intro PC.ok c.tst i _ trivial hok
    · intro h
      exact absurd hci (hlock0 (show c.lock = 0 from h) i)
    · intro j1 j2 h1 h2
      rcases update_pred_elim PC.holding c.tst i j1 _ h1 with ⟨e1, _⟩ | ⟨_, hh1⟩
      · rcases update_pred_elim PC.holding c.tst i j2 _ h2 with ⟨e2, _⟩ | ⟨_, hh2⟩
        · rw [e1, e2]
        · exact e1.trans (huniq j2 i hh2 hci).symm
      · rcases update_pred_elim PC.holding c.tst i j2 _ h2 with ⟨e2, _⟩ | ⟨_, hh2⟩
        · exact (huniq j1 i hh1 hci).trans e2.symm
        · exact huniq j1 j2 hh1 hh2
    · have h := sum_update_rem c.tst i (PC.unlocking sw (k - 1))
      rw [hpc] at h
      show c.counter + 1 + (Finset.univ.sum fun j =>
        (Function.update c.tst i (PC.unlocking sw (k - 1)) j).rem) = n * K
      have hr : (PC.crit sw k).rem = k := rfl
      have hc : (PC.unlocking sw (k - 1)).rem = k - 1 := rfl
      omega
    · intro j hj
      show c.lock = 2
      rcases update_pred_elim PC.swapHolder c.tst i j _ hj with ⟨_, hh⟩ | ⟨_, hh⟩
      · cases sw with
        | false => exact absurd hh (by simp [PC.swapHolder])
        | true => exact hsw i (by rw [hpc]; trivial)
      · exact hsw j hh
  | release i sw k hpc =>
    have hci : (c.tst i).holding := by rw [hpc]; trivial
    refine ⟨?_, ?_, ?_, ?_, ?_⟩
    · have hpcok : (if k = 0 then PC.done else PC.ready k).ok := by
        by_cases hk : k = 0 <;> simp [hk, PC.ok]
        omega
      exact update_pred_intro PC.ok c.tst i _ hpcok hok
    · intro _ j hj
      rcases update_pred_elim PC.holding c.tst i j _ hj with ⟨_, hh⟩ | ⟨hne, hh⟩
      · revert hh; by_cases hk : k = 0 <;> simp [hk, PC.holding]
      · exact hne (huniq j i hh hci)
    · intro j1 j2 h1 h2
      exfalso
      rcases update_pred_elim PC.holding c.tst i j1 _ h1 with ⟨_, hh1⟩ | ⟨hne1, hh1⟩
      · revert hh1; by_cases hk : k = 0 <;> simp [hk, PC.holding]
      · exact hne1 (huniq j1 i hh1 hci)
    · have h := sum_update_rem c.tst i (if k = 0 then PC.done else PC.ready k)
      rw [hpc] at h
      show c.counter + (Finset.univ.sum fun j =>
        (Function.update c.tst i (if k = 0 then PC.done else PC.ready k) j).rem) = n * K
      have hr : (PC.unlocking sw k).rem = k := rfl
      have hc : (if k = 0 then PC.done else PC.ready k).rem = k := by
        by_cases hk : k = 0 <;> simp [hk, PC.rem]
      omega
    · intro j hj
      exfalso
      rcases update_pred_elim PC.swapHolder c.tst i j _ hj with ⟨_, hh⟩ | ⟨hne, hh⟩
      · revert hh; by_cases hk : k = 0 <;> simp [hk, PC.swapHolder]
      · exact hne (huniq j i (holding_of_swapHolder _ hh) hci)

theorem inv_reachable {n K : Nat} {c : Cfg n} (h : Reachable n K c) : Inv n K c := by
  induction h with
  | refl => exact inv_init n K
  | tail _ hstep ih => exact inv_step ih hstep

/-! ## Claim theorems -/

/-- C1: in every execution of the interleaving machine in which `n` threads
each perform `K` lock-protected increments through `Mutex::lock`, at most one
thread holds exclusive access to the protected data at any reachable
configuration, and when all threads have finished the counter equals exactly
`n * K` (no lost updates). -/
theorem mutex_mutual_exclusion_no_lost_updates (n K : Nat) (c : Cfg n)
    (h : Reachable n K c) :
    (∀ i j, (c.tst i).holding → (c.tst j).holding → i = j) ∧
    ((∀ i, c.tst i = PC.done) → c.counter = n * K) := by
  obtain ⟨hok, hlock0, huniq, hsum, hsw⟩ := inv_reachable h
  refine ⟨huniq, ?_⟩
  intro hdone
  have hz : (Finset.univ.sum fun i => (c.tst i).rem) = 0 := by
    apply Finset.sum_eq_zero
    intro i _
    rw [hdone i]
    rfl
  omega

/-- Witness for C1: one thread performing one increment; the machine reaches
the all-done configuration and the counter is `1 * 1`. -/
theorem mutex_mutual_exclusion_no_lost_updates_witness :
    (⟨0, 1, Function.update (Function.update (Function.update
      (initCfg 1 1).tst 0 (PC.crit false 1)) 0 (PC.unlocking false 0)) 0
      PC.done⟩ : Cfg 1).counter = 1 * 1 := by
  have s1 : Step 1 (initCfg 1 1) ⟨1, (initCfg 1 1).counter,
      Function.update (initCfg 1 1).tst 0 (PC.crit false 1)⟩ :=
    Step.casSuccess (initCfg 1 1) 0 1 rfl rfl
  have s2 : Step 1 (⟨1, (initCfg 1 1).counter,
      Function.update (initCfg 1 1).tst 0 (PC.crit false 1)⟩ : Cfg 1)
      ⟨1, (initCfg 1 1).counter + 1, Function.update (Function.update
        (initCfg 1 1).tst 0 (PC.crit false 1)) 0 (PC.unlocking false 0)⟩ :=
    Step.increment _ 0 false 1 rfl
  have s3 : Step 1 (⟨1, (initCfg 1 1).counter + 1,
      Function.update (Function.update (initCfg 1 1).tst 0 (PC.crit false 1)) 0
        (PC.unlocking false 0)⟩ : Cfg 1)
      ⟨0, (initCfg 1 1).counter + 1, Function.update (Function.update
        (Function.update (initCfg 1 1).tst 0 (PC.crit false 1)) 0
        (PC.unlocking false 0)) 0 PC.done⟩ :=
    Step.release _ 0 false 0 rfl
  have reach : Reachable 1 1 ⟨0, 1, Function.update (Function.update
      (Function.update (initCfg 1 1).tst 0 (PC.crit false 1)) 0
      (PC.unlocking false 0)) 0 PC.done⟩ :=
    Relation.ReflTransGen.tail (Relation.ReflTransGen.tail
      (Relation.ReflTransGen.tail Relation.ReflTransGen.refl s1) s2) s3
  exact (mutex_mutual_exclusion_no_lost_updates 1 1 _ reach).2 (by decide)

/-- C4: in every reachable configuration, while a thread that acquired the
lock through the contended path's `swap` holds it (up to and including the
moment its guard drop runs), the mutex word is `LOCKED_WITH_WAITERS (2)` and
never `LOCKED_NO_WAITERS (1)`; hence the guard drop's `swap(0)` observes `2`
and takes the wake branch. -/
theorem mutex_contended_acquire_leaves_locked_with_waiters (n K : Nat)
    (c : Cfg n) (hreach : Reachable n K c) (i : Fin n) (k : Nat)
    (hacq : c.tst i = PC.crit true k ∨ c.tst i = PC.unlocking true k) :
    c.lock = 2 ∧ c.lock ≠ 1 := by
  obtain ⟨hok, hlock0, huniq, hsum, hsw⟩ := inv_reachable hreach
  have h2 : c.lock = 2 := by
    apply hsw i
    cases hacq with
    | inl h => rw [h]; trivial
    | inr h => rw [h]; trivial
  exact ⟨h2, by omega⟩

/-- Witness for C4: two threads, the second acquiring through the contended
swap after the first releases; the lock word is `2`, not `1`. -/
theorem mutex_contended_acquire_leaves_locked_with_waiters_witness :
    (⟨2, 1, Function.update (Function.update (Function.update
      (Function.update (Function.update (initCfg 2 1).tst 0 (PC.crit false 1)) 1
      (PC.looping 1)) 0 (PC.unlocking false 0)) 0 PC.done) 1
      (PC.crit true 1)⟩ : Cfg 2).lock = 2 ∧
    (⟨2, 1, Function.update (Function.update (Function.update
      (Function.update (Function.update (initCfg 2 1).tst 0 (PC.crit false 1)) 1
      (PC.looping 1)) 0 (PC.unlocking false 0)) 0 PC.done) 1
      (PC.crit true 1)⟩ : Cfg 2).lock ≠ 1 := by
  have s1 : Step 2 (initCfg 2 1) ⟨1, (initCfg 2 1).counter,
      Function.update (initCfg 2 1).tst 0 (PC.crit false 1)⟩ :=
    Step.casSuccess (initCfg 2 1) 0 1 rfl rfl
  have s2 : Step 2 (⟨1, (initCfg 2 1).counter,
      Function.update (initCfg 2 1).tst 0 (PC.crit false 1)⟩ : Cfg 2)
      ⟨1, (initCfg 2 1).counter, Function.update (Function.update
        (initCfg 2 1).tst 0 (PC.crit false 1)) 1 (PC.looping 1)⟩ :=
    Step.casFail _ 1 1 rfl (by decide)
  have s3 : Step 2 (⟨1, (initCfg 2 1).counter, Function.update (Function.update
      (initCfg 2 1).tst 0 (PC.crit false 1)) 1 (PC.looping 1)⟩ : Cfg 2)
      ⟨1, (initCfg 2 1).counter + 1, Function.update (Function.update
        (Function.update (initCfg 2 1).tst 0 (PC.crit false 1)) 1
        (PC.looping 1)) 0 (PC.unlocking false 0)⟩ :=
    Step.increment _ 0 false 1 rfl
  have s4 : Step 2 (⟨1, (initCfg 2 1).counter + 1, Function.update
      (Function.update (Function.update (initCfg 2 1).tst 0 (PC.crit false 1)) 1
      (PC.looping 1)) 0 (PC.unlocking false 0)⟩ : Cfg 2)
      ⟨0, (initCfg 2 1).counter + 1, Function.update (Function.update
        (Function.update (Function.update (initCfg 2 1).tst 0
        (PC.crit false 1)) 1 (PC.looping 1)) 0 (PC.unlocking false 0)) 0
        PC.done⟩ :=
    Step.release _ 0 false 0 rfl
  have s5 : Step 2 (⟨0, (initCfg 2 1).counter + 1, Function.update
      (Function.update (Function.update (Function.update (initCfg 2 1).tst 0
      (PC.crit false 1)) 1 (PC.looping 1)) 0 (PC.unlocking false 0)) 0
      PC.done⟩ : Cfg 2)
      ⟨2, (initCfg 2 1).counter + 1, Function.update (Function.update
        (Function.update (Function.update (Function.update (initCfg 2 1).tst 0
        (PC.crit false 1)) 1 (PC.looping 1)) 0 (PC.unlocking false 0)) 0
        PC.done) 1 (PC.crit true 1)⟩ :=
    Step.swapAcquire _ 1 1 rfl rfl
  have reach : Reachable 2 1 ⟨2, 1, Function.update (Function.update
      (Function.update (Function.update (Function.update (initCfg 2 1).tst 0
      (PC.crit false 1)) 1 (PC.looping 1)) 0 (PC.unlocking false 0)) 0
      PC.done) 1 (PC.crit true 1)⟩ :=
    Relation.ReflTransGen.tail (Relation.ReflTransGen.tail
      (Relation.ReflTransGen.tail (Relation.ReflTransGen.tail
      (Relation.ReflTransGen.tail Relation.ReflTransGen.refl s1) s2) s3) s4) s5
  exact mutex_contended_acquire_leaves_locked_with_waiters 2 1 _ reach 1 1
    (Or.inl (by decide))

/-- C2: dropping a `MutexGuard` swaps the mutex word to `UNLOCKED (0)`
(leaving the protected data untouched) and calls `wake_one` on it if and only
if the previous value was `LOCKED_WITH_WAITERS (2)`; in particular a previous
value of `LOCKED_NO_WAITERS (1)` produces no wake call. -/
theorem mutex_guard_drop_unlocks_and_wakes_iff_waiters {T : Type}
    (m : MutexSt T) :
    (guardDrop m).1.locked = 0 ∧ (guardDrop m).1.data = m.data ∧
    ((guardDrop m).2 = true ↔ m.locked = 2) := by
  refine ⟨rfl, rfl, ?_⟩
  simp [guardDrop]

/-- C3 counterexample: in the contended loop, when the swap observes `1` and
then `0`, a `wait(state, 2)` call occurs with only one spin-loop hint issued
before it — the wait is not deferred until a 100-iteration spin budget is
exhausted, refuting the claim that `wait` is called only after the budget. -/
theorem lock_contended_wait_before_budget_counterexample :
    ¬ (∀ pre e post, lockContendedLoop 0 [1, 0] =
        pre ++ MuEv.waitCall e :: post → 100 ≤ pre.count MuEv.hint) := by
  intro h
  exact absurd (h [MuEv.swapObs 1, MuEv.hint] 2 [MuEv.swapObs 0] (by decide))
    (by decide)

/-- C3 amended: on each pass of the contended acquisition loop whose swap
observes a nonzero value, the thread issues at most one spin-loop hint — and
does so exactly while fewer than `100` hints have been issued in total — and
then calls the wait primitive with expected value `LOCKED_WITH_WAITERS (2)` on
every such pass (not only once the spin budget is exhausted): every wait call
carries expected value `2`, there is one wait per contended pass, and the
total number of hints is `min (contended passes) (100 - spin)`. -/
theorem lock_contended_hint_budget_and_wait_every_pass (spin : Nat)
    (obs : List Nat) :
    (∀ e, MuEv.waitCall e ∈ lockContendedLoop spin obs → e = 2) ∧
    (lockContendedLoop spin obs).count (MuEv.waitCall 2) = countContended obs ∧
    (lockContendedLoop spin obs).count MuEv.hint
      = min (countContended obs) (100 - spin) := by
  induction obs generalizing spin with
  | nil => simp [lockContendedLoop, countContended]
  | cons old rest ih =>
    by_cases h0 : old = 0
    · simp [lockContendedLoop, countContended, h0]
    · by_cases hs : spin < 100
      · obtain ⟨ih1, ih2, ih3⟩ := ih (spin + 1)
        refine ⟨?_, ?_, ?_⟩
        · intro e he
          simp [lockContendedLoop, h0, hs] at he
          rcases he with he | he
          · exact he
          · exact ih1 e he
        · simp [lockContendedLoop, countContended, h0, hs, List.count_cons, ih2]
        · simp [lockContendedLoop, countContended, h0, hs, List.count_cons, ih3]
          omega
      · obtain ⟨ih1, ih2, ih3⟩ := ih spin
        refine ⟨?_, ?_, ?_⟩
        · intro e he
          simp [lockContendedLoop, h0, hs] at he
          rcases he with he | he
          · exact he
          · exact ih1 e he
        · simp [lockContendedLoop, countContended, h0, hs, List.count_cons, ih2]
        · simp [lockContendedLoop, countContended, h0, hs, List.count_cons, ih3]
          omega

/-- Witness for the amended C3 at `spin = 0`, `obs = [1, 0]`. -/
theorem lock_contended_hint_budget_witness :
    ((2 : Nat) = 2) ∧
    (lockContendedLoop 0 [1, 0]).count (MuEv.waitCall 2) = countContended [1, 0] :=
  ⟨(lock_contended_hint_budget_and_wait_every_pass 0 [1, 0]).1 2 (by decide),
   (lock_contended_hint_budget_and_wait_every_pass 0 [1, 0]).2.1⟩

/-- C7: `ReadGuard::drop` fetch-subtracts `2` from the state word (with u32
wrap-around) and bumps `write_waker` and calls `wake_one` on it if and only if
the previous state value was exactly `3` (last active reader while a writer is
pending); otherwise the waker word is untouched and no wake occurs. -/
theorem rwlock_read_guard_drop_wakes_iff_last_reader (state waker : Nat) :
    (readGuardDrop state waker).1 = (state + (u32Mod - 2)) % u32Mod ∧
    ((readGuardDrop state waker).2.2 = true ↔ state = 3) ∧
    (state = 3 → (readGuardDrop state waker).2.1 = (waker + 1) % u32Mod) ∧
    (state ≠ 3 → (readGuardDrop state waker).2.1 = waker) := by
  by_cases h : state = 3 <;> simp [readGuardDrop, h]

/-- Witness for C7 at previous states `3` and `5`. -/
theorem rwlock_read_guard_drop_wakes_witness :
    (readGuardDrop 3 0).2.1 = (0 + 1) % u32Mod ∧ (readGuardDrop 5 7).2.1 = 7 :=
  ⟨(rwlock_read_guard_drop_wakes_iff_last_reader 3 0).2.2.1 rfl,
   (rwlock_read_guard_drop_wakes_iff_last_reader 5 7).2.2.2 (by decide)⟩

/-- C9 as stated is false: with a waiter count of `0`, `notify_one` (and
`notify_all`) returns without incrementing the counter and without any wake
call ­— the increment is not unconditional. -/
theorem condvar_notify_unconditional_counterexample :
    ¬ (((notifyOne ⟨0, 0⟩).1.counter = (0 + 1) % u32Mod ∧
        (notifyOne ⟨0, 0⟩).2 = true) ∧
       ((notifyAll ⟨0, 0⟩).1.counter = (0 + 1) % u32Mod ∧
        (notifyAll ⟨0, 0⟩).2 = true)) := by
  decide

/-- C9 amended: `notify_one` and `notify_all` first load the waiter count; if
it is `0` they return with no counter increment and no wake call; otherwise
they increment the counter (mod 2^32) and call wake-one (resp. wake-all) on
the counter address. -/
theorem condvar_notify_increments_and_wakes_iff_waiters (c : CondvarSt) :
    (c.waiter = 0 → notifyOne c = (c, false) ∧ notifyAll c = (c, false)) ∧
    (c.waiter ≠ 0 →
      notifyOne c = (⟨(c.counter + 1) % u32Mod, c.waiter⟩, true) ∧
      notifyAll c = (⟨(c.counter + 1) % u32Mod, c.waiter⟩, true)) := by
  by_cases h : c.waiter = 0 <;> simp [notifyOne, notifyAll, h]

/-- Witness for the amended C9: no waiters at `⟨0, 0⟩`, waiters at `⟨5, 2⟩`. -/
theorem condvar_notify_iff_waiters_witness :
    notifyOne ⟨0, 0⟩ = (⟨0, 0⟩, false) ∧
    notifyAll ⟨5, 2⟩ = (⟨(5 + 1) % u32Mod, 2⟩, true) :=
  ⟨((condvar_notify_increments_and_wakes_iff_waiters ⟨0, 0⟩).1 rfl).1,
   ((condvar_notify_increments_and_wakes_iff_waiters ⟨5, 2⟩).2 (by decide)).2⟩

/-- C10: `Mutex::with_fn(f)` is observationally equivalent to `lock()`, apply
`f` to the guard's target, drop the guard; when the mutex is free it applies
`f` exactly once to the protected value, returns `f`'s result, and leaves the
mutex unlocked on return (the guard is dropped during return). -/
theorem mutex_with_fn_equiv_lock_apply_drop {T R : Type} (m : MutexSt T)
    (f : T → T × R) :
    withFn m f = lockApplyDropSeq m f ∧
    (m.locked = 0 →
      withFn m f = some ({ locked := 0, data := (f m.data).1 }, (f m.data).2)) := by
  constructor
  · by_cases h : m.locked = 0 <;>
      simp [withFn, lockApplyDropSeq, mutexLock, guardDrop, h]
  · intro h
    simp [withFn, mutexLock, guardDrop, h]

/-- Witness for C10 on the mutex `⟨0, 10⟩` and `f = fun d => (d + 1, d * 2)`. -/
theorem mutex_with_fn_equiv_witness :
    withFn (⟨0, 10⟩ : MutexSt Nat) (fun d => (d + 1, d * 2))
      = lockApplyDropSeq (⟨0, 10⟩ : MutexSt Nat) (fun d => (d + 1, d * 2)) ∧
    withFn (⟨0, 10⟩ : MutexSt Nat) (fun d => (d + 1, d * 2))
      = some (⟨0, 11⟩, 20) :=
  ⟨(mutex_with_fn_equiv_lock_apply_drop ⟨0, 10⟩ (fun d => (d + 1, d * 2))).1,
   (mutex_with_fn_equiv_lock_apply_drop ⟨0, 10⟩ (fun d => (d + 1, d * 2))).2 rfl⟩

theorem rwRead_no_panic (state : Nat) (obs : List RwObs)
    (hall : ∀ v, v ∈ state :: obsVals obs → v % 2 = 0 → v < u32Max - 2) :
    (rwRead state obs).2 ≠ RwOut.panicked := by
  induction state, obs using rwRead.induct with
  | case1 state he hlt => simp [rwRead, he, hlt]
  | case2 state he hlt tail => simp [rwRead, he, hlt]
  | case3 state he hlt s hs s2 rest2 ih =>
    have hall2 : ∀ v ∈ s2 :: obsVals rest2, v % 2 = 0 → v < u32Max - 2 := by
      intro v hv
      apply hall
      simp [obsVals] at hv ⊢
      tauto
    simp [rwRead, he, hlt, hs]
    exact ih hall2
  | case4 state he hlt s rest hs hnr =>
    cases rest with
    | nil => simp [rwRead, he, hlt, hs]
    | cons o tail =>
      cases o with
      | casOk => simp [rwRead, he, hlt, hs]
      | casFail a => simp [rwRead, he, hlt, hs]
      | reload a => exact (hnr a tail rfl).elim
  | case5 state he hlt s rest hs ih =>
    have hall2 : ∀ v ∈ s :: obsVals rest, v % 2 = 0 → v < u32Max - 2 := by
      intro v hv
      apply hall
      simp [obsVals] at hv ⊢
      tauto
    rw [rwRead.eq_def]
    simp [he, hlt, hs]
    exact ih hall2
  | case6 state he hlt s tail => simp [rwRead, he, hlt]
  | case7 t state he hnlt =>
    exact absurd (hall state (by simp) he) hnlt
  | case8 state ho s2 rest2 ih =>
    have hall2 : ∀ v ∈ s2 :: obsVals rest2, v % 2 = 0 → v < u32Max - 2 := by
      intro v hv
      apply hall
      simp [obsVals] at hv ⊢
      tauto
    simp [rwRead, ho]
    exact ih hall2
  | case9 t state ho hnr =>
    cases t with
    | nil => rw [rwRead.eq_def]; simp [ho]
    | cons o tail =>
      cases o with
      | casOk => rw [rwRead.eq_def]; simp [ho]
      | casFail a => rw [rwRead.eq_def]; simp [ho]
      | reload a => exact (hnr a tail rfl).elim

/-- C5: the adversarial-script model of `RwLock::read` panics ("too many
readers") whenever the current observed state is even and fails the guard
`state < u32::MAX - 2`, and never panics on a run in which every observed
even state value is below that bound — the assertion is the only failure path
(the outcome type of `read`, translated from its Rust signature, has no error
value at all). -/
theorem rwlock_read_panics_iff_reader_overflow (state : Nat)
    (obs : List RwObs) :
    (state % 2 = 0 → u32Max - 2 ≤ state → (rwRead state obs).2 = RwOut.panicked) ∧
    ((∀ v, v ∈ state :: obsVals obs → v % 2 = 0 → v < u32Max - 2) →
      (rwRead state obs).2 ≠ RwOut.panicked) := by
  constructor
  · intro he hge
    rw [rwRead.eq_def]
    simp [he, Nat.not_lt.mpr hge]
  · exact rwRead_no_panic state obs

/-- Witness for C5: an observed even state of `u32::MAX - 1` panics; the
uncontended read from state `0` does not. -/
theorem rwlock_read_panics_iff_overflow_witness :
    (rwRead 4294967294 []).2 = RwOut.panicked ∧
    (rwRead 0 [RwObs.casOk]).2 ≠ RwOut.panicked :=
  ⟨(rwlock_read_panics_iff_reader_overflow 4294967294 []).1 (by decide)
      (by decide),
   (rwlock_read_panics_iff_reader_overflow 0 [RwObs.casOk]).2 (by decide)⟩

/-- C6: in every run of the `RwLock::read` loop, each compare-and-swap
attempt starts from an even observed state and targets `state + 2` (one more
reader), every `wait` call is keyed to an odd observed value (after which the
loop reloads and retries), and an acquired guard always results from an even
state (the new state is even) — a reader is never admitted from an odd
state. -/
theorem rwlock_read_cas_even_wait_odd (state : Nat) (obs : List RwObs) :
    (∀ s d, REv.casTry s d ∈ (rwRead state obs).1 → s % 2 = 0 ∧ d = s + 2) ∧
    (∀ v, REv.waitOn v ∈ (rwRead state obs).1 → v % 2 = 1) ∧
    (∀ ns, (rwRead state obs).2 = RwOut.acquired ns → ns % 2 = 0) := by
  induction state, obs using rwRead.induct with
  | case1 state he hlt => simp [rwRead, he, hlt]
  | case2 state he hlt tail =>
    refine ⟨?_, ?_, ?_⟩
    · intro s d hmem
      simp [rwRead, he, hlt] at hmem
      obtain ⟨hs, hd⟩ := hmem
      subst hs; subst hd
      exact ⟨he, rfl⟩
    · intro v hmem
      simp [rwRead, he, hlt] at hmem
    · intro ns hout
      simp [rwRead, he, hlt] at hout
      omega
  | case3 state he hlt s hs s2 rest2 ih =>
    obtain ⟨ih1, ih2, ih3⟩ := ih
    refine ⟨?_, ?_, ?_⟩
    · intro a d hmem
      simp [rwRead, he, hlt, hs] at hmem
      rcases hmem with ⟨ha, hd⟩ | hmem
      · subst ha; subst hd; exact ⟨he, rfl⟩
      · exact ih1 a d hmem
    · intro v hmem
      simp [rwRead, he, hlt, hs] at hmem
      rcases hmem with hv | hmem
      · subst hv; exact hs
      · exact ih2 v hmem
    · intro ns hout
      simp [rwRead, he, hlt, hs] at hout
      exact ih3 ns hout
  | case4 state he hlt s rest hs hnr =>
    have hred : rwRead state (RwObs.casFail s :: rest)
        = ([REv.casTry state (state + 2)], RwOut.stuck) := by
      cases rest with
      | nil => simp [rwRead, he, hlt, hs]
      | cons o tail =>
        cases o with
        | casOk => simp [rwRead, he, hlt, hs]
        | casFail a => simp [rwRead, he, hlt, hs]
        | reload a => exact (hnr a tail rfl).elim
    rw [hred]
    refine ⟨?_, ?_, ?_⟩
    · intro a d hmem
      simp at hmem
      obtain ⟨ha, hd⟩ := hmem
      subst ha; subst hd
      exact ⟨he, rfl⟩
    · intro v hmem
      simp at hmem
    · intro ns hout
      simp at hout
  | case5 state he hlt s rest hs ih =>
    obtain ⟨ih1, ih2, ih3⟩ := ih
    have hred : rwRead state (RwObs.casFail s :: rest)
        = (REv.casTry state (state + 2) :: (rwRead s rest).1,
           (rwRead s rest).2) := by
      rw [rwRead.eq_def]
      simp [he, hlt, hs]
    rw [hred]
    refine ⟨?_, ?_, ?_⟩
    · intro a d hmem
      simp at hmem
      rcases hmem with ⟨ha, hd⟩ | hmem
      · subst ha; subst hd; exact ⟨he, rfl⟩
      · exact ih1 a d hmem
    · intro v hmem
      simp at hmem
      exact ih2 v hmem
    · exact ih3
  | case6 state he hlt s tail => simp [rwRead, he, hlt]
  | case7 t state he hnlt =>
    have hred : rwRead state t = ([], RwOut.panicked) := by
      rw [rwRead.eq_def]
      simp [he, hnlt]
    rw [hred]
    simp
  | case8 state ho s2 rest2 ih =>
    obtain ⟨ih1, ih2, ih3⟩ := ih
    have hred : rwRead state (RwObs.reload s2 :: rest2)
        = (REv.waitOn state :: (rwRead s2 rest2).1, (rwRead s2 rest2).2) := by
      rw [rwRead.eq_def]
      simp [ho]
    rw [hred]
    refine ⟨?_, ?_, ?_⟩
    · intro a d hmem
      simp at hmem
      exact ih1 a d hmem
    · intro v hmem
      simp at hmem
      rcases hmem with hv | hmem
      · subst hv; omega
      · exact ih2 v hmem
    · exact ih3
  | case9 t state ho hnr =>
    have hred : rwRead state t = ([], RwOut.stuck) := by
      cases t with
      | nil => rw [rwRead.eq_def]; simp [ho]
      | cons o tail =>
        cases o with
        | casOk => rw [rwRead.eq_def]; simp [ho]
        | casFail a => rw [rwRead.eq_def]; simp [ho]
        | reload a => exact (hnr a tail rfl).elim
    rw [hred]
    simp

/-- Witness for C6: a CAS from even state `0`, a wait keyed to odd state `1`,
and an acquisition producing even state `2`. -/
theorem rwlock_read_cas_even_wait_odd_witness :
    ((0 : Nat) % 2 = 0 ∧ (2 : Nat) = 0 + 2) ∧ (1 : Nat) % 2 = 1 ∧
      (2 : Nat) % 2 = 0 :=
  ⟨(rwlock_read_cas_even_wait_odd 0 [RwObs.casOk]).1 0 2 (by decide),
   (rwlock_read_cas_even_wait_odd 1 [RwObs.reload 0, RwObs.casOk]).2.1 1
     (by decide),
   (rwlock_read_cas_even_wait_odd 0 [RwObs.casOk]).2.2 2 (by decide)⟩

/-- C8: `Condvar::wait` consumes a guard and returns a guard for the same
mutex (the one the input guard's `lock` field refers to); at the moment it
returns, that mutex has been reacquired through `Mutex::lock` (its word is
`1`, locked), and dereferencing the returned guard yields the protected value
(unchanged here, as no other thread intervenes in the sequential model). -/
theorem condvar_wait_returns_same_locked_mutex {T : Type} (w : CvWorld T)
    (g : Nat) (hg : g < w.mutexes.length) :
    ((condWait w g).map Prod.snd) = some g ∧
    ((condWait w g).map fun p => (p.1.mutexes[g]?).map MutexSt.locked)
      = some (some 1) ∧
    ((condWait w g).map fun p => (p.1.mutexes[g]?).map MutexSt.data)
      = some ((w.mutexes[g]?).map MutexSt.data) := by
  have hm : w.mutexes[g]? = some (w.mutexes.get ⟨g, hg⟩) := by
    rw [List.getElem?_eq_getElem hg]
    simp
  have hcw : condWait w g = some (⟨⟨w.cv.counter,
      ((w.cv.waiter + 1) % usizeMod + (usizeMod - 1)) % usizeMod⟩,
      w.mutexes.set g ⟨1, (w.mutexes.get ⟨g, hg⟩).data⟩⟩, g) := by
    simp [condWait, hm, guardDrop, mutexLock]
  refine ⟨?_, ?_, ?_⟩
  · rw [hcw]
    rfl
  · rw [hcw]
    simp [List.getElem?_set_eq_of_lt _ hg]
  · rw [hcw, hm]
    simp [List.getElem?_set_eq_of_lt _ hg]

/-- Witness for C8: a world with one condvar and one free mutex protecting
`42`; waiting on guard `0` returns guard `0` with the mutex locked and the
value intact. -/
theorem condvar_wait_returns_same_locked_mutex_witness :
    ((condWait (⟨⟨0, 0⟩, [⟨1, 42⟩]⟩ : CvWorld Nat) 0).map Prod.snd) = some 0 ∧
    ((condWait (⟨⟨0, 0⟩, [⟨1, 42⟩]⟩ : CvWorld Nat) 0).map fun p =>
      (p.1.mutexes[0]?).map MutexSt.locked) = some (some 1) ∧
    ((condWait (⟨⟨0, 0⟩, [⟨1, 42⟩]⟩ : CvWorld Nat) 0).map fun p =>
      (p.1.mutexes[0]?).map MutexSt.data)
      = some (((⟨⟨0, 0⟩, [⟨1, 42⟩]⟩ : CvWorld Nat).mutexes[0]?).map
          MutexSt.data) :=
  condvar_wait_returns_same_locked_mutex ⟨⟨0, 0⟩, [⟨1, 42⟩]⟩ 0 (by decide)

end LearnUnsafe
